import Mathlib

/-!
# Layout-optimizing tuple: a shallow embedding

This file embeds the layout-optimizing tuple of this repository
(`Tuple.hpp` = part_000, the alternative formulation in part_001, and the
README's formulation in part_002) and settles the specification claims
about it.

Elements of the design that live at the type level in C++ (type lists,
permutations computed by template metaprogramming) are embedded as plain
Lean data: a C++ type is represented by its layout metadata (`TypeMeta`),
a type list by `List TypeMeta`, a compile-time integer list by `List Nat`,
and a record instance by its permutation together with the list of stored
values (`TupleBase`).  `std::get` on an out-of-range index — a compile
error in C++ — is embedded as `Option.none`.
-/

/-- Layout metadata of a C++ type: `sizeof` and `alignof`.
This is the only information the planner inspects (`ml::AlignOf`). -/
structure TypeMeta where
  size : Nat
  align : Nat
deriving DecidableEq, Repr

/-- `char` on the target of `main.cpp` (size 1, alignment 1). -/
def charT : TypeMeta := ⟨1, 1⟩

/-- `int` on the target of `main.cpp` (size 4, alignment 4). -/
def intT : TypeMeta := ⟨4, 4⟩

/-- `double` on the target of `main.cpp` (size 8, alignment 8). -/
def doubleT : TypeMeta := ⟨8, 8⟩

/-- `short` on the same target (size 2, alignment 2). -/
def shortT : TypeMeta := ⟨2, 2⟩

/-- The sort predicate of `MakeBase` (part_000) and `Predicate` (part_001):
compare two `Tag<ml::Int<I>, T>` pairs by `ml::Greater` on the alignment of
their second component (`ml::Get<1, ml::AlignOf<>>` piped to `ml::Greater`). -/
def alignGreater (a b : Nat × TypeMeta) : Bool :=
  b.2.align < a.2.align

/-- Modelled from the spec: one insertion step of CppML's `ml::Sort`
(the sort itself is external to this repository).  The element is placed
immediately before the first element it compares `Greater` than.  With the
strict `alignGreater` predicate this reproduces the repository's pinned
results (the `static_assert`s of part_002, e.g. permutation
`[5,3,1,6,4,2,0]` for the seven-type example). -/
def mlInsert (x : Nat × TypeMeta) : List (Nat × TypeMeta) → List (Nat × TypeMeta)
  | [] => [x]
  | y :: ys => if alignGreater x y then x :: y :: ys else y :: mlInsert x ys

/-- Modelled from the spec: CppML's `ml::Sort` over tagged types, as the
insertion sort determined by `mlInsert`. -/
def mlSort : List (Nat × TypeMeta) → List (Nat × TypeMeta)
  | [] => []
  | x :: xs => mlInsert x (mlSort xs)

/-- `ml::ZipWith<Tag>` applied to `ml::Range<>::f<0, N>` and the type list:
each type tagged with its original position. -/
def taggedList (ts : List TypeMeta) : List (Nat × TypeMeta) :=
  (List.range ts.length).zip ts

/-- part_001's `TaggedPermutation`: the tagged list sorted by the
alignment predicate. -/
def taggedPermutation (ts : List TypeMeta) : List (Nat × TypeMeta) :=
  mlSort (taggedList ts)

/-- The permutation component of part_000's `MakeBase`
(`ml::Map<ml::Unwrap<ml::Get<0>>>` over the sorted tagged list): the
original indices in physical-slot order. -/
def makeBasePerm (ts : List TypeMeta) : List Nat :=
  (mlSort (taggedList ts)).map Prod.fst

/-- The reordered-types component of part_000's `MakeBase`
(`ml::Map<ml::Unwrap<ml::Get<1>>, ml::F<std::tuple>>`): the element types
in physical-slot order. -/
def makeBaseTypes (ts : List TypeMeta) : List TypeMeta :=
  (mlSort (taggedList ts)).map Prod.snd

/-- part_001's `Extract<0>`: project the tags out of a tagged list. -/
def extract0 (l : List (Nat × TypeMeta)) : List Nat :=
  l.map Prod.fst

/-- part_001's `Extract<1, _, ml::F<std::tuple>>`: project the types. -/
def extract1 (l : List (Nat × TypeMeta)) : List TypeMeta :=
  l.map Prod.snd

/-- CppML's `ml::FindIdIf`: index of the first element satisfying the
predicate; returns the length of the list when there is none. -/
def findIdIf (p : Nat → Bool) : List Nat → Nat
  | [] => 0
  | x :: xs => if p x then 0 else findIdIf p xs + 1

/-- part_001's `InversePermutation`: for each logical index `L` in
`[0, |Permutation|)`, the position of `L` inside the permutation
(`Finder<ml::Int<L>>` ranged over `ml::TypeRange`). -/
def inversePermutation (perm : List Nat) : List Nat :=
  (List.range perm.length).map (fun L => findIdIf (· == L) perm)

/-- A runtime value stored in a tuple slot.  The `double` literal of
`main.cpp` (`5.0`) is represented by its exact integer value, which is
what the bit-exact `==` of the example observes. -/
inductive Val where
  | chr (c : Char)
  | intg (n : Int)
  | dbl (q : Int)
deriving DecidableEq, Repr

instance : Inhabited Val := ⟨Val.intg 0⟩

/-- A `TupleBase<ml::ListT<ml::Int<Is>...>, std::tuple<Ts...>>` instance
(part_000; part_001's `Tuple` carries the same data): the permutation
`Is...` baked into the type, and the permuted `std::tuple` member
`_tuple`. -/
structure TupleBase where
  Is : List Nat
  tuple : List Val
deriving DecidableEq, Repr

/-- The work constructor of `TupleBase` (part_000, also part_001's work
constructor): physical slot `i` is initialized from argument
`Is[i]` (`std::get<Is>(fwd)...`). -/
def TupleBase.work (Is : List Nat) (args : List Val) : TupleBase :=
  ⟨Is, Is.map (fun i => args.getD i default)⟩

/-- Construction of a `Tuple<Ts...>` (part_000): the delegate constructor
forwards the logical-order arguments to the work constructor of the base
computed by `MakeBase`. -/
def mkTuple (ts : List TypeMeta) (args : List Val) : TupleBase :=
  TupleBase.work (makeBasePerm ts) args

/-- part_000's `get<I>`: invert `I` by `ml::FindIdIf` over `Is...`
(the member alias `f`), then `std::get` on `_tuple`.  `none` models the
compile error of an out-of-range `std::get`. -/
def TupleBase.get (tup : TupleBase) (I : Nat) : Option Val :=
  tup.tuple[findIdIf (· == I) tup.Is]?

/-- part_001's `get<I>`: `Index<I> = ml::Get<I>` of the precomputed
`InversePermutation`, then `std::get` on `_tuple`. -/
def getViaTable (tup : TupleBase) (I : Nat) : Option Val :=
  ((inversePermutation tup.Is)[I]?).bind (fun p => tup.tuple[p]?)

/-- `std::get<i>` on a plain `std::tuple` (the reference record),
embedded as list indexing. -/
def stdGet (l : List Val) (i : Nat) : Option Val :=
  l[i]?

/-- The `envoker` helper (part_000/part_001): fold
`(... && f(get<Is>(t), get<Is>(u)))` over the index list.  An access that
does not compile (`none`) poisons the whole expression, regardless of the
runtime short-circuit. -/
def envoker : List Nat → (Nat → Option Val) → (Nat → Option Val) → Option Bool
  | [], _, _ => some true
  | i :: rest, t, u =>
    match t i, u i, envoker rest t u with
    | some x, some y, some b => some (decide (x = y) && b)
    | _, _, _ => none

/-- `operator==(const std::tuple&, const Tuple&)`: `envoker` over
`ml::Range<>::f<0, sizeof...(Ts)>` where `Ts...` is the pack of the
`std::tuple` operand. -/
def stdEqTuple (lhs : List Val) (rhs : TupleBase) : Option Bool :=
  envoker (List.range lhs.length) (stdGet lhs) rhs.get

/-- `operator==(const Tuple&, const std::tuple&)`: `return rhs == lhs;`. -/
def tupleEqStd (lhs : TupleBase) (rhs : List Val) : Option Bool :=
  stdEqTuple rhs lhs

/-- `operator==(const Tuple&, const Tuple&)` (part_002): `envoker` over
the range of the left operand's arity, with both sides accessed through
the logical `get`. -/
def tupleEqTuple (lhs rhs : TupleBase) : Option Bool :=
  envoker (List.range lhs.Is.length) lhs.get rhs.get

/-- Modelled from the spec: the host language's layout rule (glossary:
padding is inserted before each member so its offset is a multiple of its
alignment).  `alignUp n a` is the least multiple of `a` that is `≥ n`. -/
def alignUp (n a : Nat) : Nat :=
  if n % a = 0 then n else n + (a - n % a)

/-- Modelled from the spec: the end offset after laying the members out
in order starting at `off`. -/
def layoutEnd : List TypeMeta → Nat → Nat
  | [], off => off
  | t :: ts, off => layoutEnd ts (alignUp off t.align + t.size)

/-- Modelled from the spec: the alignment of the whole record is the
maximum member alignment (at least 1). -/
def structAlign (ts : List TypeMeta) : Nat :=
  ts.foldr (fun t m => max t.align m) 1

/-- Modelled from the spec: `sizeof` the record laid out in the given
member order — the end offset rounded up to the record alignment. -/
def sizeOfStruct (ts : List TypeMeta) : Nat :=
  alignUp (layoutEnd ts 0) (structAlign ts)

/-- The seven-type list of `main.cpp` and the README scenario. -/
def ts7 : List TypeMeta := [charT, intT, charT, intT, charT, doubleT, charT]

/-- The seven constructor arguments `('a', 1, 'c', 3, 'd', 5.0, 'e')`. -/
def args7 : List Val :=
  [.chr 'a', .intg 1, .chr 'c', .intg 3, .chr 'd', .dbl 5, .chr 'e']

example : makeBasePerm ts7 = [5, 3, 1, 6, 4, 2, 0] := by decide

example : makeBaseTypes ts7 =
    [doubleT, intT, intT, charT, charT, charT, charT] := by decide

example : (mkTuple ts7 args7).get 2 = some (.chr 'c') := by decide

example : tupleEqStd (mkTuple ts7 args7) args7 = some true := by decide

example : sizeOfStruct ts7 = 40 := by decide

example : sizeOfStruct (makeBaseTypes ts7) = 24 := by decide

/-! ## Lemmas about the planner's sort -/

/-- Inserting is a permutation action: `mlInsert x l` rearranges `x :: l`. -/
theorem mlInsert_perm (x : Nat × TypeMeta) (l : List (Nat × TypeMeta)) :
    (mlInsert x l).Perm (x :: l) := by
  induction l with
  | nil => simp [mlInsert]
  | cons y ys ih =>
    by_cases h : alignGreater x y
    · simp [mlInsert, h]
    · simp only [mlInsert, h, if_neg, Bool.false_eq_true, not_false_eq_true,
        ite_false]
      exact (ih.cons y).trans (List.Perm.swap x y ys)

/-- The sort permutes its input. -/
theorem mlSort_perm (l : List (Nat × TypeMeta)) : (mlSort l).Perm l := by
  induction l with
  | nil => simp [mlSort]
  | cons x xs ih => exact (mlInsert_perm x (mlSort xs)).trans (ih.cons x)

/-- Weakly descending alignments, the order produced by the sort. -/
def DescAligned (l : List (Nat × TypeMeta)) : Prop :=
  l.Pairwise (fun a b => b.2.align ≤ a.2.align)

theorem mlInsert_pairwise {x : Nat × TypeMeta} {l : List (Nat × TypeMeta)}
    (h : DescAligned l) : DescAligned (mlInsert x l) := by
  unfold DescAligned at *
  induction l with
  | nil => simp [mlInsert]
  | cons y ys ih =>
    rcases List.pairwise_cons.mp h with ⟨hy, hys⟩
    by_cases hg : alignGreater x y
    · have hx : y.2.align < x.2.align := by
        simpa [alignGreater] using hg
      have hins : mlInsert x (y :: ys) = x :: y :: ys := by
        simp [mlInsert, hg]
      rw [hins]
      refine List.pairwise_cons.mpr ⟨?_, h⟩
      intro z hz
      rcases List.mem_cons.mp hz with rfl | hz'
      · exact le_of_lt hx
      · exact le_trans (hy z hz') (le_of_lt hx)
    · have hx : x.2.align ≤ y.2.align := by
        simpa [alignGreater, Nat.not_lt] using hg
      have hins : mlInsert x (y :: ys) = y :: mlInsert x ys := by
        simp [mlInsert, hg]
      rw [hins]
      refine List.pairwise_cons.mpr ⟨?_, ih hys⟩
      intro z hz
      have hz2 : z ∈ x :: ys := (mlInsert_perm x ys).mem_iff.mp hz
      rcases List.mem_cons.mp hz2 with rfl | hz'
      · exact hx
      · exact hy z hz'

/-- The sorted tagged list is weakly descending in alignment. -/
theorem mlSort_pairwise (l : List (Nat × TypeMeta)) : DescAligned (mlSort l) := by
  induction l with
  | nil => simp [DescAligned, mlSort]
  | cons x xs ih => exact mlInsert_pairwise ih

/-! ## Lemmas about `findIdIf` -/

theorem findIdIf_lt_length {p : Nat → Bool} {l : List Nat}
    (h : ∃ x ∈ l, p x = true) : findIdIf p l < l.length := by
  induction l with
  | nil => simp at h
  | cons x xs ih =>
    rcases h with ⟨y, hy, hpy⟩
    by_cases hx : p x
    · simp [findIdIf, hx]
    · rcases List.mem_cons.mp hy with rfl | hy'
      · exact absurd hpy hx
      · simpa [findIdIf, hx] using ih ⟨y, hy', hpy⟩

theorem findIdIf_getElem {p : Nat → Bool} {l : List Nat}
    (h : findIdIf p l < l.length) : p (l.get ⟨findIdIf p l, h⟩) = true := by
  induction l with
  | nil => simp at h
  | cons x xs ih =>
    by_cases hx : p x
    · simp [findIdIf, hx]
    · have h' : findIdIf p xs < xs.length := by
        simpa [findIdIf, hx] using h
      simpa [findIdIf, hx] using ih h'

theorem findIdIf_eq_length {p : Nat → Bool} {l : List Nat}
    (h : ∀ x ∈ l, p x = false) : findIdIf p l = l.length := by
  induction l with
  | nil => simp [findIdIf]
  | cons x xs ih =>
    have hx := h x (List.mem_cons_self x xs)
    simp [findIdIf, hx, ih fun y hy => h y (List.mem_cons_of_mem x hy)]

/-- On a duplicate-free list, searching for the element stored at `i`
recovers `i` (first occurrence = only occurrence). -/
theorem findIdIf_eq_of_getElem {l : List Nat} (hnd : l.Nodup) {i : Nat}
    (h : i < l.length) : findIdIf (· == l.get ⟨i, h⟩) l = i := by
  induction l generalizing i with
  | nil => simp at h
  | cons x xs ih =>
    rcases List.nodup_cons.mp hnd with ⟨hxmem, hxs⟩
    cases i with
    | zero => simp [findIdIf]
    | succ j =>
      have hj : j < xs.length := Nat.lt_of_succ_lt_succ h
      have hmem : xs.get ⟨j, hj⟩ ∈ xs := List.get_mem xs j hj
      have hne : ¬ (x = xs.get ⟨j, hj⟩) := fun hEq => hxmem (hEq ▸ hmem)
      have hih := ih hxs hj
      simp only [List.get_eq_getElem] at hne hih
      simp [findIdIf, hne, hih]

/-! ## Lemmas about the planner's permutation -/

/-- The planner's output is a permutation of `[0, N)`. -/
theorem makeBasePerm_perm (ts : List TypeMeta) :
    (makeBasePerm ts).Perm (List.range ts.length) := by
  have h1 : (makeBasePerm ts).Perm ((taggedList ts).map Prod.fst) :=
    (mlSort_perm (taggedList ts)).map Prod.fst
  have h2 : (taggedList ts).map Prod.fst = List.range ts.length := by
    unfold taggedList
    exact List.map_fst_zip _ _ (by simp)
  exact h2 ▸ h1

theorem makeBasePerm_length (ts : List TypeMeta) :
    (makeBasePerm ts).length = ts.length := by
  simpa using (makeBasePerm_perm ts).length_eq

theorem makeBasePerm_nodup (ts : List TypeMeta) : (makeBasePerm ts).Nodup :=
  ((makeBasePerm_perm ts).nodup_iff).mpr (List.nodup_range _)

theorem mem_makeBasePerm {ts : List TypeMeta} {i : Nat} (h : i < ts.length) :
    i ∈ makeBasePerm ts :=
  (makeBasePerm_perm ts).mem_iff.mpr (List.mem_range.mpr h)

/-- The reordered type list is a rearrangement of the declared one. -/
theorem makeBaseTypes_perm (ts : List TypeMeta) :
    (makeBaseTypes ts).Perm ts := by
  have h1 : (makeBaseTypes ts).Perm ((taggedList ts).map Prod.snd) :=
    (mlSort_perm (taggedList ts)).map Prod.snd
  have h2 : (taggedList ts).map Prod.snd = ts := by
    unfold taggedList
    exact List.map_snd_zip _ _ (by simp)
  rw [h2] at h1
  exact h1

/-! ## Access lemmas -/

/-- Resolving a valid logical index through a work-constructed record
recovers the argument supplied at that logical position. -/
theorem TupleBase.get_work {perm : List Nat} {N : Nat}
    (hp : perm.Perm (List.range N)) (args : List Val) (hlen : args.length = N)
    {I : Nat} (hI : I < N) :
    (TupleBase.work perm args).get I = args[I]? := by
  have hmem : I ∈ perm := hp.mem_iff.mpr (List.mem_range.mpr hI)
  have hk : findIdIf (· == I) perm < perm.length :=
    findIdIf_lt_length ⟨I, hmem, by simp⟩
  have hval : perm.get ⟨findIdIf (· == I) perm, hk⟩ = I := by
    have := findIdIf_getElem hk
    simpa using this
  have hIa : I < args.length := hlen ▸ hI
  unfold TupleBase.work TupleBase.get
  simp only []
  rw [List.getElem?_map, List.getElem?_eq_getElem hk]
  simp only [Option.map_some']
  rw [List.getElem?_eq_getElem hIa]
  have : perm[findIdIf (· == I) perm] = I := by
    simpa [List.get_eq_getElem] using hval
  rw [this, List.getD_eq_getElem args default hIa]

/-- The precomputed inverse table of part_001 looks up the same physical
slot that part_000 computes per access with `ml::FindIdIf`. -/
theorem inversePermutation_getElem? {perm : List Nat} {I : Nat}
    (hI : I < perm.length) :
    (inversePermutation perm)[I]? = some (findIdIf (· == I) perm) := by
  unfold inversePermutation
  rw [List.getElem?_map]
  have : (List.range perm.length)[I]? = some I := by
    simp [List.getElem?_range, hI]
  rw [this]
  rfl

/-! ## Claim C1: round-trip through construction and access -/

/-- C1: for every type list and every record constructed from values
supplied in logical (declared) order, `get<I>` returns the value supplied
at logical position `I`, for every `I` in `[0, N)` — the work constructor
places argument `permutation[i]` into physical slot `i`, and `get<I>`
resolves `I` back through the inverse. -/
theorem C1_roundtrip (ts : List TypeMeta) (args : List Val)
    (hlen : args.length = ts.length) {I : Nat} (hI : I < ts.length) :
    (mkTuple ts args).get I = args[I]? :=
  TupleBase.get_work (makeBasePerm_perm ts) args hlen hI

/-- Witness for C1 at the `main.cpp` scenario, logical index 2. -/
theorem C1_roundtrip_witness :
    args7.length = ts7.length ∧ 2 < ts7.length ∧
    (mkTuple ts7 args7).get 2 = args7[2]? :=
  ⟨by decide, by decide, C1_roundtrip ts7 args7 (by decide) (by decide)⟩

/-! ## Claim C2: permutation/inverse bijection invariant -/

/-- C2: for every type list the planner's output is a permutation of
`[0, N)`, and the derived inverse (part_001's precomputed table, whose
entries are exactly part_000's per-access `ml::FindIdIf` results)
satisfies `inverse[permutation[i]] = i` and `permutation[inverse[i]] = i`
for every `i` in `[0, N)`. -/
theorem C2_permutation_inverse (ts : List TypeMeta) :
    (makeBasePerm ts).Perm (List.range ts.length) ∧
    (∀ i, i < ts.length →
      (inversePermutation (makeBasePerm ts)).getD
          ((makeBasePerm ts).getD i 0) 0 = i ∧
      (makeBasePerm ts).getD
          ((inversePermutation (makeBasePerm ts)).getD i 0) 0 = i) := by
  have hp := makeBasePerm_perm ts
  have hlen := makeBasePerm_length ts
  have hnd := makeBasePerm_nodup ts
  have hinvlen : (inversePermutation (makeBasePerm ts)).length =
      (makeBasePerm ts).length := by
    unfold inversePermutation
    simp
  refine ⟨hp, fun i hi => ?_⟩
  have hiP : i < (makeBasePerm ts).length := hlen ▸ hi
  constructor
  · have hv : (makeBasePerm ts).getD i 0 = (makeBasePerm ts).get ⟨i, hiP⟩ :=
      List.getD_eq_get _ _ hiP
    set v := (makeBasePerm ts).get ⟨i, hiP⟩ with hvdef
    have hvmem : v ∈ makeBasePerm ts := List.get_mem _ _ _
    have hvlt : v < (makeBasePerm ts).length := by
      have := List.mem_range.mp (hp.mem_iff.mp hvmem)
      omega
    have hvinv : v < (inversePermutation (makeBasePerm ts)).length :=
      hinvlen ▸ hvlt
    rw [hv]
    rw [List.getD_eq_getElem _ 0 hvinv]
    have hmapped : (inversePermutation (makeBasePerm ts))[v] =
        findIdIf (· == v) (makeBasePerm ts) := by
      have h1 := inversePermutation_getElem? hvlt
      have h2 := List.getElem?_eq_getElem hvinv
      rw [h1] at h2
      exact (Option.some.injEq _ _).mp h2.symm
    rw [hmapped, hvdef]
    exact findIdIf_eq_of_getElem hnd hiP
  · have himem : i ∈ makeBasePerm ts :=
      hp.mem_iff.mpr (List.mem_range.mpr hi)
    have hk : findIdIf (· == i) (makeBasePerm ts) <
        (makeBasePerm ts).length := findIdIf_lt_length ⟨i, himem, by simp⟩
    have hkinv : i < (inversePermutation (makeBasePerm ts)).length := by
      rw [hinvlen]; exact hiP
    have hstep : (inversePermutation (makeBasePerm ts)).getD i 0 =
        findIdIf (· == i) (makeBasePerm ts) := by
      rw [List.getD_eq_getElem _ 0 hkinv]
      have h1 := inversePermutation_getElem? hiP
      have h2 := List.getElem?_eq_getElem hkinv
      rw [h1] at h2
      exact (Option.some.injEq _ _).mp h2.symm
    rw [hstep, List.getD_eq_get _ 0 hk]
    have := findIdIf_getElem hk
    simpa using this

/-- Witness for C2 at the `main.cpp` type list, index 2. -/
theorem C2_permutation_inverse_witness :
    (makeBasePerm ts7).Perm (List.range ts7.length) ∧
    (inversePermutation (makeBasePerm ts7)).getD
        ((makeBasePerm ts7).getD 2 0) 0 = 2 ∧
    (makeBasePerm ts7).getD
        ((inversePermutation (makeBasePerm ts7)).getD 2 0) 0 = 2 := by
  have h := C2_permutation_inverse ts7
  exact ⟨h.1, (h.2 2 (by decide)).1, (h.2 2 (by decide)).2⟩

/-! ## Claim C3: the concrete `main.cpp` scenario -/

/-- C3: for the type list `[char, int, char, int, char, double, char]`
the planner produces exactly the permutation `[5,3,1,6,4,2,0]` and the
reordered type list `[double, int, int, char, char, char, char]`; the
record built from `('a', 1, 'c', 3, 'd', 5.0, 'e')` satisfies
`get<2>(record) = 'c'` and compares equal to the plain `std::tuple`
reference record holding the same seven values in the same order. -/
theorem C3_concrete_scenario :
    makeBasePerm ts7 = [5, 3, 1, 6, 4, 2, 0] ∧
    makeBaseTypes ts7 = [doubleT, intT, intT, charT, charT, charT, charT] ∧
    (mkTuple ts7 args7).get 2 = some (Val.chr 'c') ∧
    tupleEqStd (mkTuple ts7 args7) args7 = some true :=
  ⟨by decide, by decide, by decide, by decide⟩

/-! ## Claim C10: the two formulations agree -/

/-- C10: for every type list, part_001's planner (`TaggedPermutation`
with `Extract`) emits the same storage permutation and reordered types as
part_000's `MakeBase`, and for every logical index `I` in `[0, N)`,
part_001's table-lookup `get` (precomputed `InversePermutation`) resolves
to the same physical slot as part_000's per-access `ml::FindIdIf` `get`,
so both return the same element of a record built from the same
arguments. -/
theorem C10_formulations_equivalent (ts : List TypeMeta) :
    extract0 (taggedPermutation ts) = makeBasePerm ts ∧
    extract1 (taggedPermutation ts) = makeBaseTypes ts ∧
    ∀ (args : List Val) (I : Nat), I < ts.length →
      getViaTable (mkTuple ts args) I = (mkTuple ts args).get I := by
  refine ⟨rfl, rfl, fun args I hI => ?_⟩
  have hIl : I < (makeBasePerm ts).length := (makeBasePerm_length ts) ▸ hI
  show ((inversePermutation (makeBasePerm ts))[I]?).bind _ = _
  rw [inversePermutation_getElem? hIl]
  rfl

/-- Witness for C10 at the `main.cpp` scenario, logical index 2. -/
theorem C10_formulations_equivalent_witness :
    extract0 (taggedPermutation ts7) = makeBasePerm ts7 ∧
    getViaTable (mkTuple ts7 args7) 2 = (mkTuple ts7 args7).get 2 := by
  have h := C10_formulations_equivalent ts7
  exact ⟨h.1, h.2.2 args7 2 (by decide)⟩

/-! ## Equality-adapter lemmas -/

/-- `envoker` is symmetric in its two accessors: elementwise `==` is
symmetric, and an ill-formed access poisons the result on either side. -/
theorem envoker_comm (L : List Nat) (t u : Nat → Option Val) :
    envoker L t u = envoker L u t := by
  induction L with
  | nil => rfl
  | cons i rest ih =>
    simp only [envoker, ih]
    cases ht : t i <;> cases hu : u i <;>
      cases he : envoker rest u t <;> simp [eq_comm]

/-- Well-formedness of a record of arity `N`: its baked-in index list is
a permutation of `[0, N)` and its storage holds `N` values.  Every record
the `Tuple` constructor produces is of this shape. -/
def TupleBase.wf (r : TupleBase) (N : Nat) : Prop :=
  r.Is.Perm (List.range N) ∧ r.tuple.length = N

theorem mkTuple_wf (ts : List TypeMeta) (args : List Val) :
    (mkTuple ts args).wf ts.length := by
  refine ⟨makeBasePerm_perm ts, ?_⟩
  show ((makeBasePerm ts).map _).length = ts.length
  rw [List.length_map]
  exact makeBasePerm_length ts

/-- Logical access on a well-formed record is defined below the arity. -/
theorem TupleBase.get_isSome {r : TupleBase} {N : Nat} (h : r.wf N)
    {i : Nat} (hi : i < N) : (r.get i).isSome := by
  have hmem : i ∈ r.Is := h.1.mem_iff.mpr (List.mem_range.mpr hi)
  have hk : findIdIf (· == i) r.Is < r.Is.length :=
    findIdIf_lt_length ⟨i, hmem, by simp⟩
  have hlen : r.Is.length = N := by simpa using h.1.length_eq
  have hkt : findIdIf (· == i) r.Is < r.tuple.length := by
    rw [h.2]; rw [hlen] at hk; exact hk
  unfold TupleBase.get
  rw [List.getElem?_eq_getElem hkt]
  rfl

/-- If every access is defined, `envoker` yields a boolean. -/
theorem envoker_isSome {L : List Nat} {t u : Nat → Option Val}
    (ht : ∀ i ∈ L, (t i).isSome) (hu : ∀ i ∈ L, (u i).isSome) :
    (envoker L t u).isSome := by
  induction L with
  | nil => rfl
  | cons i rest ih =>
    have h1 := ht i (List.mem_cons_self i rest)
    have h2 := hu i (List.mem_cons_self i rest)
    rcases Option.isSome_iff_exists.mp h1 with ⟨x, hx⟩
    rcases Option.isSome_iff_exists.mp h2 with ⟨y, hy⟩
    have h3 := ih (fun j hj => ht j (List.mem_cons_of_mem i hj))
      (fun j hj => hu j (List.mem_cons_of_mem i hj))
    rcases Option.isSome_iff_exists.mp h3 with ⟨b, hb⟩
    simp only [envoker, hx, hy, hb]
    rfl

/-- One undefined access on the right poisons `envoker`. -/
theorem envoker_eq_none {L : List Nat} {t u : Nat → Option Val} {i : Nat}
    (hi : i ∈ L) (hu : u i = none) : envoker L t u = none := by
  induction L with
  | nil => simp at hi
  | cons j rest ih =>
    rcases List.mem_cons.mp hi with rfl | hi'
    · simp only [envoker, hu]
      cases t i <;> rfl
    · simp only [envoker, ih hi']
      cases t j <;> cases u j <;> rfl

/-! ## Claim C7: symmetry of equality -/

/-- C7: for same-arity operands, equality is symmetric — two optimized
records compare the same in either order, and the optimized-vs-reference
overload literally delegates to the reference-vs-optimized one
(`return rhs == lhs;`); comparison walks logical indices, not physical
slots. -/
theorem C7_equality_symmetric (a b : TupleBase) (l : List Val)
    (hab : a.Is.length = b.Is.length) :
    tupleEqTuple a b = tupleEqTuple b a ∧
    tupleEqStd a l = stdEqTuple l a := by
  constructor
  · unfold tupleEqTuple
    rw [hab]
    exact envoker_comm _ _ _
  · rfl

/-- Witness for C7: two same-arity records over the `main.cpp` type list
(differing in one element), and the reference record. -/
theorem C7_equality_symmetric_witness :
    tupleEqTuple (mkTuple ts7 args7)
        (mkTuple ts7 [Val.chr 'a', Val.intg 9, Val.chr 'c', Val.intg 3,
          Val.chr 'd', Val.dbl 5, Val.chr 'e']) =
      tupleEqTuple (mkTuple ts7 [Val.chr 'a', Val.intg 9, Val.chr 'c',
          Val.intg 3, Val.chr 'd', Val.dbl 5, Val.chr 'e'])
        (mkTuple ts7 args7) ∧
    tupleEqStd (mkTuple ts7 args7) args7 =
      stdEqTuple args7 (mkTuple ts7 args7) :=
  C7_equality_symmetric (mkTuple ts7 args7)
    (mkTuple ts7 [Val.chr 'a', Val.intg 9, Val.chr 'c', Val.intg 3,
      Val.chr 'd', Val.dbl 5, Val.chr 'e']) args7 (by decide)

/-! ## Claim C8: equality is defined for both operand shapes -/

/-- C8: for well-formed operands of the same arity, the equality
operation yields a boolean both for an optimized-vs-optimized pair
(part_002's `operator==(const Tuple&, const Tuple&)`) and for an
optimized-vs-reference pair (`operator==` of part_000/part_001). -/
theorem C8_equality_defined {N : Nat} {a b : TupleBase} (ha : a.wf N)
    (hb : b.wf N) (l : List Val) (hl : l.length = N) :
    (tupleEqTuple a b).isSome = true ∧
    (stdEqTuple l a).isSome = true ∧
    (tupleEqStd a l).isSome = true := by
  have hal : a.Is.length = N := by simpa using ha.1.length_eq
  have hget : ∀ r : TupleBase, r.wf N → ∀ i ∈ List.range N,
      (r.get i).isSome := by
    intro r hr i hi
    exact TupleBase.get_isSome hr (List.mem_range.mp hi)
  have hstd : ∀ i ∈ List.range N, (stdGet l i).isSome := by
    intro i hi
    have : i < l.length := hl ▸ List.mem_range.mp hi
    unfold stdGet
    rw [List.getElem?_eq_getElem this]
    rfl
  refine ⟨?_, ?_, ?_⟩
  · unfold tupleEqTuple
    rw [hal]
    exact envoker_isSome (hget a ha) (hget b hb)
  · unfold stdEqTuple
    rw [hl]
    exact envoker_isSome hstd (hget a ha)
  · unfold tupleEqStd stdEqTuple
    rw [hl]
    exact envoker_isSome hstd (hget a ha)

/-- Witness for C8 at the `main.cpp` scenario (both operands arity 7). -/
theorem C8_equality_defined_witness :
    (tupleEqTuple (mkTuple ts7 args7) (mkTuple ts7 args7)).isSome = true ∧
    (stdEqTuple args7 (mkTuple ts7 args7)).isSome = true ∧
    (tupleEqStd (mkTuple ts7 args7) args7).isSome = true :=
  C8_equality_defined (mkTuple_wf ts7 args7) (mkTuple_wf ts7 args7)
    args7 (by decide)

/-! ## Claim C9: comparison of mismatched arities -/

/-- C9 counterexample: comparing a 1-element `std::tuple` with a
2-element optimized record is NOT rejected — the implemented `operator==`
iterates over the `std::tuple` operand's arity only, silently compares
the common prefix and returns a boolean (`some true` here), refuting the
claim that a mismatched-arity comparison never yields a boolean. -/
theorem C9_arity_counterexample :
    (mkTuple [charT, intT] [Val.chr 'a', Val.intg 1]).Is.length = 2 ∧
    ([Val.chr 'a'] : List Val).length = 1 ∧
    stdEqTuple [Val.chr 'a']
      (mkTuple [charT, intT] [Val.chr 'a', Val.intg 1]) = some true := by
  refine ⟨by decide, by decide, by decide⟩

/-- C9 as amended: mismatched arity is rejected only in one direction.
When the `std::tuple` operand is longer than the optimized record, some
access `get<I>` with `I ≥ N` fails to resolve and the comparison is
ill-formed (`none`); when it is no longer than the record, the comparison
is well-formed and yields a boolean comparing the common prefix of
logical indices. -/
theorem C9_arity_behavior {N : Nat} {r : TupleBase} (hr : r.wf N)
    (l : List Val) :
    (N < l.length → stdEqTuple l r = none) ∧
    (l.length ≤ N → (stdEqTuple l r).isSome = true) := by
  constructor
  · intro hlt
    have hNmem : N ∈ List.range l.length := List.mem_range.mpr hlt
    have hnone : r.get N = none := by
      have hlen : r.Is.length = N := by simpa using hr.1.length_eq
      have hnotmem : N ∉ r.Is := by
        intro hmem
        exact absurd (List.mem_range.mp (hr.1.mem_iff.mp hmem))
          (lt_irrefl N)
      have hfi : findIdIf (· == N) r.Is = r.Is.length := by
        refine findIdIf_eq_length fun x hx => ?_
        exact beq_eq_false_iff_ne.mpr fun hEq => hnotmem (hEq ▸ hx)
      unfold TupleBase.get
      rw [hfi, hlen]
      exact List.getElem?_eq_none (le_of_eq hr.2)
    exact envoker_eq_none hNmem hnone
  · intro hle
    refine envoker_isSome ?_ ?_
    · intro i hi
      have : i < l.length := List.mem_range.mp hi
      unfold stdGet
      rw [List.getElem?_eq_getElem this]
      rfl
    · intro i hi
      exact TupleBase.get_isSome hr
        (lt_of_lt_of_le (List.mem_range.mp hi) hle)

/-- Witness for the amended C9: the arity-2 record of the counterexample
against a 3-element and a 1-element `std::tuple`. -/
theorem C9_arity_behavior_witness :
    stdEqTuple [Val.chr 'a', Val.intg 1, Val.chr 'x']
      (mkTuple [charT, intT] [Val.chr 'a', Val.intg 1]) = none ∧
    (stdEqTuple [Val.chr 'a']
      (mkTuple [charT, intT] [Val.chr 'a', Val.intg 1])).isSome = true := by
  have h3 := C9_arity_behavior (mkTuple_wf [charT, intT]
    [Val.chr 'a', Val.intg 1]) [Val.chr 'a', Val.intg 1, Val.chr 'x']
  have h1 := C9_arity_behavior (mkTuple_wf [charT, intT]
    [Val.chr 'a', Val.intg 1]) [Val.chr 'a']
  exact ⟨h3.1 (by decide), h1.2 (by decide)⟩

/-! ## Claim C6: idempotence of planning -/

/-- A strictly descending (no ties) list is a fixpoint of the sort. -/
theorem mlSort_eq_self {l : List (Nat × TypeMeta)}
    (h : l.Pairwise (fun a b => b.2.align < a.2.align)) : mlSort l = l := by
  induction l with
  | nil => rfl
  | cons x xs ih =>
    rcases List.pairwise_cons.mp h with ⟨hx, hxs⟩
    show mlInsert x (mlSort xs) = x :: xs
    rw [ih hxs]
    cases xs with
    | nil => rfl
    | cons y ys =>
      have hg : alignGreater x y = true := by
        simp only [alignGreater, decide_eq_true_eq]
        exact hx y (List.mem_cons_self y ys)
      simp [mlInsert, hg]

/-- Strict descent of the type list transfers to the tagged list. -/
theorem taggedList_pairwise {ts : List TypeMeta}
    (h : ts.Pairwise (fun a b => b.align < a.align)) :
    (taggedList ts).Pairwise (fun a b => b.2.align < a.2.align) := by
  have hsnd : (taggedList ts).map Prod.snd = ts := by
    unfold taggedList
    exact List.map_snd_zip _ _ (by simp)
  rw [← hsnd] at h
  exact List.pairwise_map.mp h

/-- C6 as amended: re-planning a type list whose alignments are STRICTLY
descending yields the identity permutation and leaves the type list
unchanged.  (The original claim, for weakly descending lists with stable
tie order, fails: the sort reverses equal-alignment runs.) -/
theorem C6_replan_strict_descending (ts : List TypeMeta)
    (h : ts.Pairwise (fun a b => b.align < a.align)) :
    makeBasePerm ts = List.range ts.length ∧ makeBaseTypes ts = ts := by
  have hfix : mlSort (taggedList ts) = taggedList ts :=
    mlSort_eq_self (taggedList_pairwise h)
  unfold makeBasePerm makeBaseTypes
  rw [hfix]
  constructor
  · exact List.map_fst_zip _ _ (by simp)
  · exact List.map_snd_zip _ _ (by simp)

/-- Witness for the amended C6: `[double, int, char]` has strictly
descending alignments 8 > 4 > 1 and is left untouched by planning. -/
theorem C6_replan_strict_descending_witness :
    makeBasePerm [doubleT, intT, charT] = List.range 3 ∧
    makeBaseTypes [doubleT, intT, charT] = [doubleT, intT, charT] :=
  C6_replan_strict_descending [doubleT, intT, charT] (by decide)

/-- C6 counterexample: `[char, char]` is already sorted by descending
alignment (with stable tie order: it is its own stable sort), yet
re-planning yields `[1, 0]`, not the identity permutation. -/
theorem C6_idempotence_counterexample :
    List.Pairwise (fun a b : TypeMeta => b.align ≤ a.align) [charT, charT] ∧
    makeBasePerm [charT, charT] = [1, 0] ∧
    makeBasePerm [charT, charT] ≠ List.range 2 :=
  ⟨by decide, by decide, by decide⟩

/-! ## Claim C4: tie handling of the planner's sort -/

/-- Inserting an element whose alignment is not `A` does not disturb the
`A`-aligned subsequence. -/
theorem mlInsert_filter_ne {x : Nat × TypeMeta} {A : Nat}
    (hx : x.2.align ≠ A) (l : List (Nat × TypeMeta)) :
    (mlInsert x l).filter (fun z => z.2.align == A) =
      l.filter (fun z => z.2.align == A) := by
  have hxb : (x.2.align == A) = false := beq_eq_false_iff_ne.mpr hx
  induction l with
  | nil => simp [mlInsert, hxb]
  | cons y ys ih =>
    by_cases hg : alignGreater x y
    · simp [mlInsert, hg, hxb]
    · simp only [mlInsert, hg, Bool.false_eq_true, not_false_eq_true,
        if_neg, ite_false]
      rw [List.filter_cons, List.filter_cons, ih]

/-- Inserting an `A`-aligned element into a weakly descending list places
it AFTER every `A`-aligned element already present. -/
theorem mlInsert_filter_eq {x : Nat × TypeMeta} {A : Nat}
    (hx : x.2.align = A) {l : List (Nat × TypeMeta)} (hl : DescAligned l) :
    (mlInsert x l).filter (fun z => z.2.align == A) =
      l.filter (fun z => z.2.align == A) ++ [x] := by
  have hxb : (x.2.align == A) = true := beq_iff_eq.mpr hx
  induction l with
  | nil => simp [mlInsert, hxb]
  | cons y ys ih =>
    rcases List.pairwise_cons.mp hl with ⟨hy, hys⟩
    by_cases hg : alignGreater x y
    · have hyA : y.2.align < A := by
        have := (by simpa [alignGreater] using hg : y.2.align < x.2.align)
        omega
      have hnil : (y :: ys).filter (fun z => z.2.align == A) = [] := by
        refine List.filter_eq_nil.mpr fun z hz => ?_
        rcases List.mem_cons.mp hz with rfl | hz'
        · simp
          omega
        · have : z.2.align ≤ y.2.align := hy z hz'
          simp
          omega
      have hins : mlInsert x (y :: ys) = x :: y :: ys := by
        simp [mlInsert, hg]
      rw [hins, List.filter_cons, hxb, hnil]
      simp
    · have hins : mlInsert x (y :: ys) = y :: mlInsert x ys := by
        simp [mlInsert, hg]
      rw [hins, List.filter_cons, List.filter_cons, ih hys]
      cases hyb : (y.2.align == A) <;> simp

/-- The sort maps each equal-alignment subsequence to its REVERSE: with
the strict `Greater` comparator, each element is inserted after the
equal-alignment elements that follow it in declaration order. -/
theorem mlSort_filter_reverse (A : Nat) (l : List (Nat × TypeMeta)) :
    (mlSort l).filter (fun z => z.2.align == A) =
      (l.filter (fun z => z.2.align == A)).reverse := by
  induction l with
  | nil => rfl
  | cons x xs ih =>
    show (mlInsert x (mlSort xs)).filter _ = _
    by_cases hx : x.2.align = A
    · rw [mlInsert_filter_eq hx (mlSort_pairwise xs), ih, List.filter_cons]
      rw [beq_iff_eq.mpr hx]
      simp
    · rw [mlInsert_filter_ne hx, ih, List.filter_cons]
      rw [beq_eq_false_iff_ne.mpr hx]
      simp

/-- When every element has the same alignment the whole sorted list is
the reverse of the input. -/
theorem mlSort_reverse_of_const_align {A : Nat}
    {l : List (Nat × TypeMeta)} (h : ∀ z ∈ l, z.2.align = A) :
    mlSort l = l.reverse := by
  have h1 := mlSort_filter_reverse A l
  have h2 : l.filter (fun z => z.2.align == A) = l :=
    List.filter_eq_self.mpr fun z hz => beq_iff_eq.mpr (h z hz)
  have h3 : (mlSort l).filter (fun z => z.2.align == A) = mlSort l := by
    refine List.filter_eq_self.mpr fun z hz => ?_
    exact beq_iff_eq.mpr (h z ((mlSort_perm l).mem_iff.mp hz))
  rw [h2] at h1
  rw [h3] at h1
  exact h1

/-- C4 as amended: the planner's sort is ANTI-stable on ties.  For every
type list and alignment value `A`, the `A`-aligned entries of the sorted
tagged list appear in REVERSE declaration order (so two equal-alignment
types swap their relative order); in particular an input whose types all
share one alignment yields the reversed identity permutation, not the
identity. -/
theorem C4_tie_reversal (ts : List TypeMeta) (A : Nat) :
    (taggedPermutation ts).filter (fun z => z.2.align == A) =
      ((taggedList ts).filter (fun z => z.2.align == A)).reverse ∧
    ((∀ t ∈ ts, t.align = A) →
      makeBasePerm ts = (List.range ts.length).reverse) := by
  constructor
  · exact mlSort_filter_reverse A (taggedList ts)
  · intro hall
    have hz : ∀ z ∈ taggedList ts, z.2.align = A := by
      intro z hzin
      exact hall z.2 (List.of_mem_zip hzin).2
    unfold makeBasePerm
    rw [mlSort_reverse_of_const_align hz, List.map_reverse]
    congr 1
    exact List.map_fst_zip _ _ (by simp)

/-- Witness for the amended C4: the chars of the `main.cpp` list come out
reversed, and the all-`char` list yields the reversal permutation. -/
theorem C4_tie_reversal_witness :
    (taggedPermutation ts7).filter (fun z => z.2.align == 1) =
      ((taggedList ts7).filter (fun z => z.2.align == 1)).reverse ∧
    makeBasePerm [charT, charT, charT] = (List.range 3).reverse := by
  refine ⟨(C4_tie_reversal ts7 1).1, ?_⟩
  exact (C4_tie_reversal [charT, charT, charT] 1).2 (by decide)

/-- C4 counterexample: the all-equal-alignment input `[char, char]`
yields permutation `[1, 0]` — the two equal-alignment elements appear in
reversed relative order, and the permutation is not the identity the
stable-sort claim requires. -/
theorem C4_stability_counterexample :
    charT.align = charT.align ∧
    makeBasePerm [charT, charT] = [1, 0] ∧
    makeBasePerm [charT, charT] ≠ List.range 2 :=
  ⟨rfl, by decide, by decide⟩

/-! ## Layout lemmas for the footprint claim -/

theorem le_alignUp (n a : Nat) : n ≤ alignUp n a := by
  unfold alignUp
  split
  · exact le_refl n
  · exact Nat.le_add_right n _

theorem alignUp_eq_of_dvd {n a : Nat} (h : a ∣ n) : alignUp n a = n := by
  unfold alignUp
  have hm : n % a = 0 := Nat.mod_eq_zero_of_dvd h
  simp [hm]

theorem alignUp_eq_mul {n a : Nat} (ha : 0 < a) (h : n % a ≠ 0) :
    alignUp n a = a * (n / a + 1) := by
  have hq := Nat.div_add_mod n a
  have hlt := Nat.mod_lt n ha
  unfold alignUp
  rw [if_neg h, Nat.mul_add, Nat.mul_one]
  omega

theorem dvd_alignUp {n a : Nat} (ha : 0 < a) : a ∣ alignUp n a := by
  by_cases h : n % a = 0
  · have : alignUp n a = n := by unfold alignUp; simp [h]
    rw [this]
    exact Nat.dvd_of_mod_eq_zero h
  · rw [alignUp_eq_mul ha h]
    exact Nat.dvd_mul_right a _

/-- `alignUp n a` is the LEAST multiple of `a` at or above `n`. -/
theorem alignUp_le_of_dvd_of_le {n m a : Nat} (ha : 0 < a) (hd : a ∣ m)
    (hnm : n ≤ m) : alignUp n a ≤ m := by
  by_cases h : n % a = 0
  · have : alignUp n a = n := by unfold alignUp; simp [h]
    rw [this]
    exact hnm
  · rw [alignUp_eq_mul ha h]
    obtain ⟨k, rfl⟩ := hd
    have hq := Nat.div_add_mod n a
    have hqk : n / a < k := by
      by_contra hc
      push_neg at hc
      have h1 : a * k ≤ a * (n / a) := Nat.mul_le_mul_left a hc
      omega
    exact Nat.mul_le_mul_left a (Nat.succ_le_of_lt hqk)

/-- Whatever the member order, the end offset dominates the payload. -/
theorem le_layoutEnd (ts : List TypeMeta) (off : Nat) :
    off + (ts.map TypeMeta.size).sum ≤ layoutEnd ts off := by
  induction ts generalizing off with
  | nil => simp [layoutEnd]
  | cons t rest ih =>
    have h1 := le_alignUp off t.align
    have h2 := ih (alignUp off t.align + t.size)
    simp only [layoutEnd, List.map_cons, List.sum_cons]
    omega

/-- In weakly descending alignment order, with C++-realizable metadata
(positive alignments dividing the sizes, alignments pairwise comparable
under divisibility) every member lands exactly at the running offset: no
internal padding at all. -/
theorem layoutEnd_sorted : ∀ (l : List TypeMeta) (off : Nat),
    l.Pairwise (fun a b => b.align ≤ a.align) →
    (∀ t ∈ l, 0 < t.align ∧ t.align ∣ t.size) →
    (∀ t ∈ l, ∀ u ∈ l, t.align ∣ u.align ∨ u.align ∣ t.align) →
    (∀ t ∈ l, t.align ∣ off) →
    layoutEnd l off = off + (l.map TypeMeta.size).sum := by
  intro l
  induction l with
  | nil =>
    intro off _ _ _ _
    simp [layoutEnd]
  | cons t rest ih =>
    intro off hdesc hwf hcmp hoff
    rcases List.pairwise_cons.mp hdesc with ⟨hd, hdesc'⟩
    have htoff : t.align ∣ off := hoff t (List.mem_cons_self t rest)
    have haup : alignUp off t.align = off := alignUp_eq_of_dvd htoff
    have hoff' : ∀ u ∈ rest, u.align ∣ off + t.size := by
      intro u hu
      have hu1 : u.align ∣ off := hoff u (List.mem_cons_of_mem t hu)
      have hupos : 0 < u.align := (hwf u (List.mem_cons_of_mem t hu)).1
      have hdvdt : u.align ∣ t.align := by
        rcases hcmp t (List.mem_cons_self t rest) u
            (List.mem_cons_of_mem t hu) with h | h
        · have h1 : t.align ≤ u.align := Nat.le_of_dvd hupos h
          have h2 : u.align = t.align := le_antisymm (hd u hu) h1
          rw [h2]
        · exact h
      exact dvd_add hu1 (hdvdt.trans (hwf t (List.mem_cons_self t rest)).2)
    have hrec := ih (off + t.size) hdesc'
      (fun u hu => hwf u (List.mem_cons_of_mem t hu))
      (fun u hu v hv => hcmp u (List.mem_cons_of_mem t hu) v
        (List.mem_cons_of_mem t hv))
      hoff'
    simp only [layoutEnd, List.map_cons, List.sum_cons]
    rw [haup, hrec]
    omega

theorem structAlign_pos (ts : List TypeMeta) : 0 < structAlign ts := by
  induction ts with
  | nil => simp [structAlign]
  | cons t rest ih =>
    have : structAlign (t :: rest) = max t.align (structAlign rest) := rfl
    rw [this]
    exact lt_of_lt_of_le ih (le_max_right _ _)

/-- The record alignment only depends on which members occur, not on
their order. -/
theorem structAlign_perm {l₁ l₂ : List TypeMeta} (h : l₁.Perm l₂) :
    structAlign l₁ = structAlign l₂ := by
  induction h with
  | nil => rfl
  | cons x _ ih =>
    unfold structAlign at ih ⊢
    simp only [List.foldr_cons]
    rw [ih]
  | swap x y l => exact max_left_comm _ _ _
  | trans _ _ ih1 ih2 => exact ih1.trans ih2

/-! ## Claim C5: footprint of the optimized layout -/

/-- C5 as amended: for every list of C++-realizable element metadata
(positive alignment dividing the size — `sizeof` is always a multiple of
`alignof` in C++ — and alignments pairwise comparable under divisibility,
as powers of two are), the storage footprint of the optimized record is
at most that of the declaration-order record.  (The original claim's
"equality only when the naive order already equals the
alignment-descending order" is refuted separately: equality can also
occur when the orders differ.) -/
theorem C5_footprint_le (ts : List TypeMeta)
    (hwf : ∀ t ∈ ts, 0 < t.align ∧ t.align ∣ t.size)
    (hcmp : ∀ t ∈ ts, ∀ u ∈ ts, t.align ∣ u.align ∨ u.align ∣ t.align) :
    sizeOfStruct (makeBaseTypes ts) ≤ sizeOfStruct ts := by
  have hperm := makeBaseTypes_perm ts
  have hA : structAlign (makeBaseTypes ts) = structAlign ts :=
    structAlign_perm hperm
  have hApos : 0 < structAlign ts := structAlign_pos ts
  have hdesc : (makeBaseTypes ts).Pairwise (fun a b => b.align ≤ a.align) := by
    have hs := mlSort_pairwise (taggedList ts)
    unfold DescAligned at hs
    unfold makeBaseTypes
    exact List.pairwise_map.mpr hs
  have hsorted : layoutEnd (makeBaseTypes ts) 0 =
      ((makeBaseTypes ts).map TypeMeta.size).sum := by
    have h := layoutEnd_sorted (makeBaseTypes ts) 0 hdesc
      (fun t ht => hwf t (hperm.mem_iff.mp ht))
      (fun t ht u hu => hcmp t (hperm.mem_iff.mp ht) u (hperm.mem_iff.mp hu))
      (fun t _ => Nat.dvd_zero t.align)
    simpa using h
  have hsum : ((makeBaseTypes ts).map TypeMeta.size).sum =
      (ts.map TypeMeta.size).sum := (hperm.map _).sum_eq
  have hnaive : (ts.map TypeMeta.size).sum ≤ layoutEnd ts 0 := by
    have h := le_layoutEnd ts 0
    omega
  unfold sizeOfStruct
  rw [hA, hsorted, hsum]
  refine alignUp_le_of_dvd_of_le hApos (dvd_alignUp hApos) ?_
  exact le_trans hnaive (le_alignUp _ _)

/-- Witness for the amended C5 at the `main.cpp` type list:
24 bytes optimized versus 40 bytes in declaration order. -/
theorem C5_footprint_le_witness :
    sizeOfStruct (makeBaseTypes ts7) ≤ sizeOfStruct ts7 :=
  C5_footprint_le ts7 (by decide) (by decide)

/-- C5 counterexample: for `[char, short]` the optimized layout
`[short, char]` differs from the naive order yet BOTH occupy 4 bytes, so
"equality only when the naive order already equals the
alignment-descending order" is false. -/
theorem C5_footprint_counterexample :
    sizeOfStruct (makeBaseTypes [charT, shortT]) =
      sizeOfStruct [charT, shortT] ∧
    makeBaseTypes [charT, shortT] ≠ [charT, shortT] :=
  ⟨by decide, by decide⟩
